import Mathlib

/-!
Verification of the NachOS-4.0 MP4 on-disk file-system layer
(`code/filesys/filesys.cc`, `code/filesys/directory.cc`).

The development shallowly embeds the directory table, path resolution and
the `FileSystem` operations as executable Lean functions over an explicit
disk state.  Raw sector I/O, the persistent free-space bitmap, the file
header and the open-file handle are external collaborators whose sources
are not part of the verified core; they are modelled from the written
specification (see the doc comments marked `Modelled from the spec:`).
Persistent writes are reified as an explicit event list so that theorems
can speak about which on-disk objects an operation writes and in which
order.
-/

namespace NachFS

/-- Maximum file-name length used by the fixed-length name comparison
(`FileNameMaxLen` in `directory.h`; the header is not part of the verified
sources, the stock NachOS value is 9).  Only the fact that both `strncpy`
and `strncmp` use the same bound matters for the proofs. -/
def FileNameMaxLen : Nat := 9

/-- Number of entries of every directory table (`NumDirEntries` in
`filesys.cc`). -/
def NumDirEntries : Nat := 64

/-- Well-known sector of the free-map file header (`FreeMapSector`). -/
def FreeMapSector : Nat := 0

/-- Well-known sector of the root-directory file header
(`DirectorySector`). -/
def DirectorySector : Nat := 1

/-- One slot of a directory table (`DirectoryEntry` in `directory.h`):
in-use flag, directory flag, header sector of the named file, and the
stored (truncated) name. -/
structure DirEntry where
  inUse : Bool
  isDir : Bool
  sector : Nat
  name : List Char
deriving DecidableEq

/-- The all-zero slot produced by `Directory::Directory`. -/
def emptyEntry : DirEntry := { inUse := false, isDir := false, sector := 0, name := [] }

/-- `Directory::Directory(size)`: a fresh table with every slot unused. -/
def dirNew (size : Nat) : List DirEntry := List.replicate size emptyEntry

/-- Fixed-length name comparison: `!strncmp(a, b, FileNameMaxLen)`. -/
def nameEq (a b : List Char) : Bool :=
  a.take FileNameMaxLen == b.take FileNameMaxLen

/-- Scanning loop of `Directory::FindIndex`, carrying the index of the
head of the remaining list. -/
def findIndexAux (n : List Char) : List DirEntry → Nat → Option Nat
  | [], _ => none
  | e :: rest, i =>
    if e.inUse && nameEq e.name n then some i else findIndexAux n rest (i + 1)

/-- `Directory::FindIndex(name)`: index of the first in-use entry whose
name matches under the fixed-length comparison. -/
def findIndex (t : List DirEntry) (n : List Char) : Option Nat :=
  findIndexAux n t 0

/-- `Directory::Find(name)`: the matching entry's header sector. -/
def dirFind (t : List DirEntry) (n : List Char) : Option Nat :=
  (findIndex t n).map fun i => (t.getD i emptyEntry).sector

/-- Index of the first unused slot, as scanned by the loop of
`Directory::Add`. -/
def firstUnused : List DirEntry → Option Nat
  | [] => none
  | e :: rest => if e.inUse then (firstUnused rest).map (· + 1) else some 0

/-- `Directory::Add(name, newSector, isDir)`: fails if the name is already
present, otherwise overwrites the first unused slot (storing the name
truncated by `strncpy`).  `none` models returning `FALSE` with the table
untouched. -/
def dirAdd (t : List DirEntry) (n : List Char) (s : Nat) (d : Bool) :
    Option (List DirEntry) :=
  if (findIndex t n).isSome then none
  else (firstUnused t).map fun i =>
    t.set i { inUse := true, isDir := d, sector := s, name := n.take FileNameMaxLen }

/-- `Directory::Remove(name)`: clears the in-use and directory flags of the
matching slot, leaving its name and sector bytes in place. -/
def dirRemove (t : List DirEntry) (n : List Char) : Option (List DirEntry) :=
  (findIndex t n).map fun i =>
    t.set i { t.getD i emptyEntry with inUse := false, isDir := false }

/-- Number of in-use slots of a table. -/
def countInUse (t : List DirEntry) : Nat := t.countP fun e => e.inUse

/-- Names of the in-use slots, in table order. -/
def inUseNames (t : List DirEntry) : List (List Char) :=
  (t.filter fun e => e.inUse).map DirEntry.name

/-- Names of the in-use entries are pairwise distinct under the
fixed-length comparison. -/
def distinctInUseNames (t : List DirEntry) : Prop :=
  List.Pairwise (fun a b => nameEq a b = false) (inUseNames t)

/-! ## Sequential fill of a table -/

/-- A sequence of `Directory::Add` calls, failing as soon as one fails. -/
def addAll : List DirEntry → List (List Char × Nat × Bool) → Option (List DirEntry)
  | t, [] => some t
  | t, a :: rest =>
    match dirAdd t a.1 a.2.1 a.2.2 with
    | none => none
    | some t' => addAll t' rest

example : findIndex (dirNew 3) ['a'] = none := by decide
example : dirAdd (dirNew 2) ['a'] 7 false =
    some [{ inUse := true, isDir := false, sector := 7, name := ['a'] }, emptyEntry] := by decide
example : (dirAdd (dirNew 2) ['a'] 7 false).bind (fun t => dirFind t ['a']) = some 7 := by decide

/-! ## External collaborators: free-space bitmap and file header

`pbitmap.cc`, `filehdr.cc` and `openfile.cc` are out-of-scope collaborators
(spec §1/§3); the definitions below are modelled from the spec. -/

/-- In-memory contents of the free-space bitmap: one bit per sector. -/
abbrev Bitmap := List Bool

/-- Modelled from the spec: `Bitmap::FindAndSet` of the external bitmap
collaborator — find the lowest clear bit, set it, and return its index;
fail when every bit is set. -/
def bmFindAndSet : Bitmap → Option (Nat × Bitmap)
  | [] => none
  | b :: rest =>
    if b then (bmFindAndSet rest).map fun p => (p.1 + 1, b :: p.2)
    else some (0, true :: rest)

/-- Modelled from the spec: `Bitmap::Clear` — clear one bit. -/
def bmClear (bm : Bitmap) (i : Nat) : Bitmap := bm.set i false

/-- Modelled from the spec: `Bitmap::Mark` — set one bit. -/
def bmMark (bm : Bitmap) (i : Nat) : Bitmap := bm.set i true

/-- Bit of a sector in a bitmap (out-of-range sectors read as clear). -/
def bmTest (bm : Bitmap) (i : Nat) : Bool := bm.getD i false

/-- Modelled from the spec: the external file header — the file's byte
size and the data sectors it maps (`FileHeader` of `filehdr.h`). -/
structure FileHeader where
  numBytes : Nat
  dataSectors : List Nat
deriving DecidableEq

/-- Ceiling division, as used to turn a byte count into a sector count. -/
def divCeil (a b : Nat) : Nat := (a + b - 1) / b

/-- Take `k` sectors from the bitmap, lowest-first. -/
def bmTakeSectors : Nat → Bitmap → Option (List Nat × Bitmap)
  | 0, bm => some ([], bm)
  | k + 1, bm =>
    match bmFindAndSet bm with
    | none => none
    | some (s, bm') => (bmTakeSectors k bm').map fun p => (s :: p.1, p.2)

/-- Modelled from the spec: `FileHeader::Allocate(freeMap, size)` —
allocate `⌈size / sectorSize⌉` data sectors from the in-memory bitmap,
failing (with the copy to be discarded) when the free sectors are
insufficient. -/
def hdrAllocate (sectorSize : Nat) (bm : Bitmap) (size : Nat) :
    Option (FileHeader × Bitmap) :=
  (bmTakeSectors (divCeil size sectorSize) bm).map fun p =>
    ({ numBytes := size, dataSectors := p.1 }, p.2)

/-- Modelled from the spec: `FileHeader::Deallocate(freeMap)` — clear the
bit of every data sector of the header. -/
def hdrDeallocate (h : FileHeader) (bm : Bitmap) : Bitmap :=
  h.dataSectors.foldl bmClear bm

/-! ## Disk state and persistent-write events -/

/-- Persistent on-disk state, at the abstraction level of the verified
core: the contents of the free-map file, the header stored at each
sector, and the table stored in the directory file whose header lives at
each sector.  An open-file handle to a file is identified with its
header sector. -/
structure DiskState where
  bitmap : Bitmap
  headers : Nat → Option FileHeader
  tables : Nat → Option (List DirEntry)

/-- One persistent write: a header to its sector (`FileHeader::WriteBack`),
a directory table to its backing file (`Directory::WriteBack`), or the
bitmap to its file (`PersistentBitmap::WriteBack`). -/
inductive WEvent where
  | wheader (sector : Nat) (h : FileHeader)
  | wtable (sector : Nat) (t : List DirEntry)
  | wbitmap (bm : Bitmap)
deriving DecidableEq

/-- Effect of one persistent write on the disk. -/
def applyEvent (st : DiskState) : WEvent → DiskState
  | .wheader s h => { st with headers := fun i => if i = s then some h else st.headers i }
  | .wtable s t => { st with tables := fun i => if i = s then some t else st.tables i }
  | .wbitmap bm => { st with bitmap := bm }

/-- Effect of a sequence of persistent writes, first to last. -/
def applyEvents (st : DiskState) (es : List WEvent) : DiskState :=
  es.foldl applyEvent st

/-- Reading a directory file: `Directory::FetchFrom` through the handle
whose header sector is `s` (a sector holding no directory table
rehydrates as garbage; any fixed table is an adequate model since the
code never relies on such reads). -/
def fetchTable (st : DiskState) (s : Nat) : List DirEntry :=
  (st.tables s).getD (dirNew NumDirEntries)

/-! ## Path tokenization and resolution (`FileSystem::Parse`) -/

/-- Tokenizer loop: split on `'/'`, skipping empty components, exactly as
the `strtok` loops of `filesys.cc` do. -/
def splitOnSlash : List Char → List Char → List (List Char)
  | [], acc => if acc = [] then [] else [acc]
  | c :: rest, acc =>
    if c = '/' then
      if acc = [] then splitOnSlash rest [] else acc :: splitOnSlash rest []
    else splitOnSlash rest (acc ++ [c])

/-- Components of a path string. -/
def splitPath (p : List Char) : List (List Char) := splitOnSlash p []

/-- The `folder` array filled by the tokenizer loops: each component is
truncated by `strncpy(folder[count++], pch, FileNameMaxLen)`. -/
def folderOf (p : List Char) : List (List Char) :=
  (splitPath p).map fun n => n.take FileNameMaxLen

/-- `folder[count-1]`: the final path component. -/
def finalNameOf (folder : List (List Char)) : List Char :=
  folder.getLast?.getD []

/-- The walking loop of `FileSystem::Parse`: look each component up in the
table of the current directory file, descending into the found sector;
a missing component aborts with `none`. -/
def parseWalk (st : DiskState) : List (List Char) → Nat → Option Nat
  | [], cur => some cur
  | n :: rest, cur =>
    match dirFind (fetchTable st cur) n with
    | none => none
    | some s => parseWalk st rest s

/-- `FileSystem::Parse(path, create, folder, count)`: tokenize, then walk
components `0 .. count-1-create` starting from the root directory file;
return the handle (header sector) of the last visited directory, or
`none` (the null handle), together with the parsed components. -/
def Parse (st : DiskState) (path : List Char) (create : Bool) :
    Option Nat × List (List Char) :=
  let folder := folderOf path
  (parseWalk st (folder.take (folder.length - (if create then 1 else 0)))
     DirectorySector, folder)

/-! ## FileSystem operations -/

/-- External disk and record geometry (`disk.h` and `directory.h` are not
part of the verified sources): sector count, sector byte size, byte size
of one serialized directory table (`DirectoryFileSize`) and of the
free-map file (`FreeMapFileSize`). -/
structure Geometry where
  numSectors : Nat
  sectorSize : Nat
  dirFileSize : Nat
  freeMapFileSize : Nat

/-- `FileSystem::Create(name, initialSize)` (filesys.cc:184): resolve the
parent with `create = TRUE`; fail if the final name exists, if no header
sector is free, if the parent table is full, or if the data sectors
cannot be allocated — in every failure case the in-memory copies are
discarded and nothing is written.  On success the returned event list
holds the three writes of the commit, in program order. -/
def Create (g : Geometry) (st : DiskState) (path : List Char)
    (initialSize : Nat) : Bool × List WEvent :=
  match Parse st path true with
  | (none, _) => (false, [])
  | (some parentSec, folder) =>
    if (dirFind (fetchTable st parentSec) (finalNameOf folder)).isSome then (false, [])
    else
      match bmFindAndSet st.bitmap with
      | none => (false, [])
      | some (sector, bm1) =>
        match dirAdd (fetchTable st parentSec) (finalNameOf folder) sector false with
        | none => (false, [])
        | some dir2 =>
          match hdrAllocate g.sectorSize bm1 initialSize with
          | none => (false, [])
          | some (hdr, bm2) =>
            (true, [WEvent.wheader sector hdr, WEvent.wtable parentSec dir2,
                    WEvent.wbitmap bm2])

/-- `FileSystem::CreateDirectory(path)` (filesys.cc:266): same resolution
and allocation pattern, the allocated size being one serialized table;
additionally writes a brand-new empty table into the new directory file
and tags the entry `isDir = TRUE`. -/
def CreateDirectory (g : Geometry) (st : DiskState) (path : List Char) :
    Bool × List WEvent :=
  let folder := folderOf path
  match parseWalk st (folder.take (folder.length - 1)) DirectorySector with
  | none => (false, [])
  | some parentSec =>
    match bmFindAndSet st.bitmap with
    | none => (false, [])
    | some (newDirSector, bm1) =>
      match dirAdd (fetchTable st parentSec) (finalNameOf folder) newDirSector true with
      | none => (false, [])
      | some dir2 =>
        match hdrAllocate g.sectorSize bm1 g.dirFileSize with
        | none => (false, [])
        | some (hdr, bm2) =>
          (true, [WEvent.wheader newDirSector hdr,
                  WEvent.wtable newDirSector (dirNew NumDirEntries),
                  WEvent.wtable parentSec dir2,
                  WEvent.wbitmap bm2])

/-- `FileSystem::Open(name)` (filesys.cc:356): resolve the parent with
`create = TRUE`, look the final component up, and return a handle over
the found sector — with no check of the entry's directory flag. -/
def Open (st : DiskState) (path : List Char) : Option Nat :=
  match Parse st path true with
  | (none, _) => none
  | (some parentSec, folder) => dirFind (fetchTable st parentSec) (finalNameOf folder)

/-- `FileSystem::Remove(name)` (filesys.cc:423): resolve the parent; fail
with nothing written when resolution fails or the final name is absent;
otherwise fetch the header, deallocate its data sectors and its own
sector in the in-memory bitmap, remove the directory entry, and persist
the bitmap and then the parent table. -/
def Remove (st : DiskState) (path : List Char) : Bool × List WEvent :=
  match Parse st path true with
  | (none, _) => (false, [])
  | (some parentSec, folder) =>
    match dirFind (fetchTable st parentSec) (finalNameOf folder) with
    | none => (false, [])
    | some sector =>
      (true,
       [WEvent.wbitmap (bmClear (hdrDeallocate
          ((st.headers sector).getD { numBytes := 0, dataSectors := [] })
          st.bitmap) sector),
        WEvent.wtable parentSec ((dirRemove (fetchTable st parentSec)
          (finalNameOf folder)).getD (fetchTable st parentSec))])

/-- `Create` as a state transformer. -/
def CreateSt (g : Geometry) (st : DiskState) (path : List Char)
    (initialSize : Nat) : Bool × DiskState :=
  let r := Create g st path initialSize
  (r.1, applyEvents st r.2)

/-- `CreateDirectory` as a state transformer. -/
def CreateDirectorySt (g : Geometry) (st : DiskState) (path : List Char) :
    Bool × DiskState :=
  let r := CreateDirectory g st path
  (r.1, applyEvents st r.2)

/-- `Remove` as a state transformer. -/
def RemoveSt (st : DiskState) (path : List Char) : Bool × DiskState :=
  let r := Remove st path
  (r.1, applyEvents st r.2)

/-! ## RecurRemoveDirectory -/

/-- Outcome of a `RecurRemoveDirectory` call.  The C function is declared
`bool` but contains no `return` statement, so no return value is
modelled; `aborted` is the `ASSERT(openDirectoryFile != NULL)` hard
abort, and `outOfFuel` only reflects exhaustion of the model's recursion
budget (the code itself recurses unboundedly). -/
inductive RROut where
  | ok (st : DiskState)
  | aborted
  | outOfFuel

/-- Result state of a normally returning `RecurRemoveDirectory` call. -/
def rrState : RROut → Option DiskState
  | .ok st => some st
  | _ => none

/-- Whether the call hard-aborted through `ASSERT`. -/
def rrAborted : RROut → Bool
  | .aborted => true
  | _ => false

/-- The child loop of `FileSystem::RecurRemoveDirectory` (filesys.cc:682):
for each in-use entry of the fetched table, build `name + "/" + entry
name` and call `Remove` on file entries or recurse on directory
entries, threading the disk state. -/
def rrChildLoop (recF : DiskState → List Char → RROut) :
    List DirEntry → DiskState → List Char → RROut
  | [], st, _ => .ok st
  | e :: rest, st, path =>
    if e.inUse then
      if e.isDir then
        match recF st (path ++ '/' :: e.name) with
        | .ok st' => rrChildLoop recF rest st' path
        | r => r
      else rrChildLoop recF rest (RemoveSt st (path ++ '/' :: e.name)).2 path
    else rrChildLoop recF rest st path

/-- `FileSystem::RecurRemoveDirectory(name)` (filesys.cc:654), with an
explicit recursion budget: parse (asserting the resolution succeeded),
locate the target entry, fetch its table, header and the free map, run
the child loop, then deallocate the target's data sectors and header bit
in the free-map copy fetched *before* the loop, remove the target's
entry from the re-fetched parent table, and write the free map and the
parent table back. -/
def recurRemoveAux : Nat → DiskState → List Char → RROut
  | 0, _, _ => .outOfFuel
  | fuel + 1, st, path =>
    match Parse st path true with
    | (none, _) => .aborted
    | (some parentSec, folder) =>
      let fn := finalNameOf folder
      match dirFind (fetchTable st parentSec) fn with
      | none => .ok st
      | some sector =>
        let dir := fetchTable st sector
        let hdr := (st.headers sector).getD { numBytes := 0, dataSectors := [] }
        let bm0 := st.bitmap
        match rrChildLoop (fun st2 p2 => recurRemoveAux fuel st2 p2) dir st path with
        | .ok st1 =>
          let bm1 := bmClear (hdrDeallocate hdr bm0) sector
          let pdir := fetchTable st1 parentSec
          let pdir2 := (dirRemove pdir fn).getD pdir
          .ok (applyEvents st1 [WEvent.wbitmap bm1, WEvent.wtable parentSec pdir2])
        | r => r

/-! ## Formatting a fresh disk (`FileSystem::FileSystem(TRUE)`) -/

/-- A fully empty disk. -/
def emptyDisk (g : Geometry) : DiskState :=
  { bitmap := List.replicate g.numSectors false,
    headers := fun _ => none, tables := fun _ => none }

/-- `FileSystem::FileSystem(format = TRUE)` (filesys.cc:81): mark the two
well-known sectors, allocate headers for the free-map and root-directory
files, write both headers, the bitmap and the empty root table. -/
def formatDisk (g : Geometry) : Option DiskState :=
  let bm0 := bmMark (bmMark (List.replicate g.numSectors false) FreeMapSector)
    DirectorySector
  match hdrAllocate g.sectorSize bm0 g.freeMapFileSize with
  | none => none
  | some (mapHdr, bm1) =>
    match hdrAllocate g.sectorSize bm1 g.dirFileSize with
    | none => none
    | some (dirHdr, bm2) =>
      some { bitmap := bm2,
             headers := fun s =>
               if s = FreeMapSector then some mapHdr
               else if s = DirectorySector then some dirHdr else none,
             tables := fun s =>
               if s = DirectorySector then some (dirNew NumDirEntries) else none }

/-! ## A concrete formatted disk and the recursive-removal scenario -/

/-- A small but fully faithful geometry for concrete runs: 32 sectors,
sectors large enough that one serialized table fits in one sector. -/
def gEx : Geometry :=
  { numSectors := 32, sectorSize := 1280, dirFileSize := 1280, freeMapFileSize := 4 }

/-- The freshly formatted example disk. -/
def disk0 : DiskState := (formatDisk gEx).getD (emptyDisk gEx)

/-- Path `"/a"`. -/
def pA : List Char := ['/', 'a']

/-- Path `"/a/b"`. -/
def pAB : List Char := ['/', 'a', '/', 'b']

/-- Path `"/a/b/f.txt"`. -/
def pABF : List Char := ['/', 'a', '/', 'b', '/', 'f', '.', 't', 'x', 't']

/-- State after `CreateDirectory("/a")`. -/
def stA : DiskState := (CreateDirectorySt gEx disk0 pA).2

/-- State after `CreateDirectory("/a/b")`. -/
def stB : DiskState := (CreateDirectorySt gEx stA pAB).2

/-- State after `Create("/a/b/f.txt", 10)`. -/
def stF : DiskState := (CreateSt gEx stB pABF 10).2

/-- Outcome of `RecurRemoveDirectory("/a")` on that state. -/
def rrRun : RROut := recurRemoveAux 8 stF pA

/-- Final disk state of the scenario. -/
def stEnd : DiskState := (rrState rrRun).getD stF

/-- State after `Create("/f", 10)` on the example disk, used as a witness
state. -/
def stFile : DiskState := (CreateSt gEx disk0 ['/', 'f'] 10).2

example : (CreateDirectorySt gEx disk0 pA).1 = true := by decide
example : (CreateDirectorySt gEx stA pAB).1 = true := by decide
example : (CreateSt gEx stB pABF 10).1 = true := by decide
example : (rrState rrRun).isSome = true := by decide
example : Open stF pABF = some 8 := by decide
example : Open stEnd pA = none := by decide
example : Open stEnd pAB = none := by decide
example : Open stEnd pABF = none := by decide
example : bmTest stEnd.bitmap 4 = false := by decide
example : bmTest stEnd.bitmap 5 = false := by decide
example : bmTest stEnd.bitmap 6 = true := by decide
example : bmTest stEnd.bitmap 7 = true := by decide
example : bmTest stEnd.bitmap 8 = true := by decide
example : bmTest stEnd.bitmap 9 = true := by decide
example : rrAborted (recurRemoveAux 5 disk0 ['/', 'g', '/', 's']) = true := by decide

/-! ## Lemmas about the fixed-length name comparison -/

theorem nameEq_iff {a b : List Char} :
    nameEq a b = true ↔ a.take FileNameMaxLen = b.take FileNameMaxLen := by
  simp [nameEq]

theorem nameEq_false_iff {a b : List Char} :
    nameEq a b = false ↔ a.take FileNameMaxLen ≠ b.take FileNameMaxLen := by
  simp [nameEq]

theorem nameEq_symm {a b : List Char} : nameEq a b = nameEq b a := by
  simp only [nameEq]
  rcases Decidable.em (a.take FileNameMaxLen = b.take FileNameMaxLen) with h | h
  · rw [h]
  · rw [beq_eq_false_iff_ne.mpr h, beq_eq_false_iff_ne.mpr fun hb => h hb.symm]

theorem nameEq_take_left {a b : List Char} :
    nameEq (a.take FileNameMaxLen) b = nameEq a b := by
  simp [nameEq, List.take_take]

theorem nameEq_refl (a : List Char) : nameEq a a = true := by
  simp [nameEq]

/-! ## Lemmas about directory-table lookup -/

theorem findIndexAux_eq_none {n : List Char} :
    ∀ {t : List DirEntry} (k : Nat), findIndexAux n t k = none ↔
      ∀ e ∈ t, e.inUse = true → nameEq e.name n = false := by
  intro t
  induction t with
  | nil => intro k; simp [findIndexAux]
  | cons e rest ih =>
    intro k
    by_cases h : e.inUse && nameEq e.name n
    · simp only [findIndexAux, if_pos h]
      simp only [Bool.and_eq_true] at h
      constructor
      · intro hc; exact absurd hc (by simp)
      · intro hall
        have := hall e (List.mem_cons_self e rest) h.1
        rw [h.2] at this; exact absurd this (by simp)
    · simp only [findIndexAux, if_neg h, ih (k + 1)]
      constructor
      · intro hall e' he' hu
        rcases List.mem_cons.mp he' with rfl | hmem
        · rcases Bool.eq_false_or_eq_true (nameEq e'.name n) with ht | hf
          · exact absurd (by rw [hu, ht]; rfl) h
          · exact hf
        · exact hall e' hmem hu
      · intro hall e' he' hu
        exact hall e' (List.mem_cons_of_mem _ he') hu

theorem findIndex_eq_none {t : List DirEntry} {n : List Char} :
    findIndex t n = none ↔
      ∀ e ∈ t, e.inUse = true → nameEq e.name n = false :=
  findIndexAux_eq_none 0

theorem findIndexAux_some {n : List Char} :
    ∀ {t : List DirEntry} {k i : Nat}, findIndexAux n t k = some i →
      k ≤ i ∧ i - k < t.length ∧
      (t.getD (i - k) emptyEntry).inUse = true ∧
      nameEq (t.getD (i - k) emptyEntry).name n = true := by
  intro t
  induction t with
  | nil => intro k i h; simp [findIndexAux] at h
  | cons e rest ih =>
    intro k i h
    by_cases hc : e.inUse && nameEq e.name n
    · simp only [findIndexAux, if_pos hc] at h
      cases h
      simp only [Bool.and_eq_true] at hc
      refine ⟨le_refl _, ?_, ?_, ?_⟩ <;> simp [hc.1, hc.2]
    · simp only [findIndexAux, if_neg hc] at h
      obtain ⟨hk, hlen, hu, hn⟩ := ih h
      have hki : k < i := hk
      have hik : i - k = (i - (k + 1)) + 1 := by omega
      refine ⟨le_of_lt hki, ?_, ?_, ?_⟩
      · simp only [List.length_cons]; omega
      · rw [hik, List.getD_cons_succ]; exact hu
      · rw [hik, List.getD_cons_succ]; exact hn

theorem findIndex_some {t : List DirEntry} {n : List Char} {i : Nat}
    (h : findIndex t n = some i) :
    i < t.length ∧ (t.getD i emptyEntry).inUse = true ∧
      nameEq (t.getD i emptyEntry).name n = true := by
  have := findIndexAux_some (t := t) (k := 0) h
  simpa using this

theorem findIndex_isSome_of_mem {t : List DirEntry} {n : List Char}
    (e : DirEntry) (he : e ∈ t) (hu : e.inUse = true)
    (hn : nameEq e.name n = true) : (findIndex t n).isSome = true := by
  rcases ho : findIndex t n with _ | i
  · have := findIndex_eq_none.mp ho e he hu
    rw [hn] at this; exact absurd this (by simp)
  · rfl

/-! ## Lemmas about the first-unused-slot scan and slot updates -/

theorem firstUnused_eq_none {t : List DirEntry} :
    firstUnused t = none ↔ ∀ e ∈ t, e.inUse = true := by
  induction t with
  | nil => simp [firstUnused]
  | cons e rest ih =>
    by_cases h : e.inUse
    · simp [firstUnused, h, ih, Option.map_eq_none']
    · simp only [firstUnused, h, if_false]
      constructor
      · intro hc; exact absurd hc (by simp)
      · intro hall
        exact absurd (hall e (List.mem_cons_self e rest)) h

theorem firstUnused_some {t : List DirEntry} {i : Nat}
    (h : firstUnused t = some i) :
    i < t.length ∧ (t.getD i emptyEntry).inUse = false := by
  induction t generalizing i with
  | nil => simp [firstUnused] at h
  | cons e rest ih =>
    by_cases hu : e.inUse
    · simp only [firstUnused, if_pos hu, Option.map_eq_some'] at h
      obtain ⟨j, hj, rfl⟩ := h
      obtain ⟨hlen, hdd⟩ := ih hj
      exact ⟨by simp only [List.length_cons]; omega, by rwa [List.getD_cons_succ]⟩
    · simp only [firstUnused, if_neg hu] at h
      cases h
      refine ⟨by simp, ?_⟩
      rw [List.getD_cons_zero]
      exact eq_false_of_ne_true hu

theorem firstUnused_isSome {t : List DirEntry} {i : Nat}
    (hi : i < t.length) (hu : (t.getD i emptyEntry).inUse = false) :
    (firstUnused t).isSome = true := by
  induction t generalizing i with
  | nil => simp at hi
  | cons e rest ih =>
    by_cases he : e.inUse
    · cases i with
      | zero => rw [List.getD_cons_zero] at hu; rw [hu] at he; exact absurd he (by simp)
      | succ j =>
        rw [List.getD_cons_succ] at hu
        have := ih (by simpa using Nat.lt_of_succ_lt_succ hi) hu
        simp only [firstUnused, if_pos he, Option.isSome_map']
        exact this
    · simp [firstUnused, he]

theorem getD_set_self {α : Type} {d : α} {t : List α} {i : Nat} {e : α}
    (h : i < t.length) : (t.set i e).getD i d = e := by
  induction t generalizing i with
  | nil => simp at h
  | cons x rest ih =>
    cases i with
    | zero => rfl
    | succ j =>
      simp only [List.set_cons_succ, List.getD_cons_succ]
      exact ih (by simpa using Nat.lt_of_succ_lt_succ h)

theorem getD_set_ne {α : Type} {d : α} {t : List α} {i j : Nat} {e : α}
    (h : j ≠ i) : (t.set i e).getD j d = t.getD j d := by
  induction t generalizing i j with
  | nil => simp [List.set_nil]
  | cons x rest ih =>
    cases i with
    | zero =>
      cases j with
      | zero => exact absurd rfl h
      | succ k => simp [List.set_cons_zero, List.getD_cons_succ]
    | succ i' =>
      cases j with
      | zero => simp [List.set_cons_succ, List.getD_cons_zero]
      | succ k =>
        simp only [List.set_cons_succ, List.getD_cons_succ]
        exact ih fun hk => h (by rw [hk])

/-! ## Lemmas about in-use names and the in-use count -/

theorem inUseNames_cons {e : DirEntry} {t : List DirEntry} :
    inUseNames (e :: t) =
      if e.inUse then e.name :: inUseNames t else inUseNames t := by
  by_cases h : e.inUse <;> simp [inUseNames, List.filter_cons, h]

theorem countInUse_eq_length {t : List DirEntry} :
    countInUse t = (inUseNames t).length := by
  simp [countInUse, inUseNames, List.countP_eq_length_filter]

theorem countInUse_le {t : List DirEntry} : countInUse t ≤ t.length :=
  List.countP_le_length _

theorem mem_inUseNames {t : List DirEntry} {m : List Char} :
    m ∈ inUseNames t ↔ ∃ e ∈ t, e.inUse = true ∧ e.name = m := by
  simp only [inUseNames, List.mem_map, List.mem_filter]
  constructor
  · rintro ⟨e, ⟨he, hu⟩, rfl⟩; exact ⟨e, he, hu, rfl⟩
  · rintro ⟨e, he, hu, rfl⟩; exact ⟨e, ⟨he, hu⟩, rfl⟩

theorem findIndex_eq_none_iff_names {t : List DirEntry} {n : List Char} :
    findIndex t n = none ↔ ∀ m ∈ inUseNames t, nameEq m n = false := by
  rw [findIndex_eq_none]
  constructor
  · intro h m hm
    obtain ⟨e, he, hu, rfl⟩ := mem_inUseNames.mp hm
    exact h e he hu
  · intro h e he hu
    exact h e.name (mem_inUseNames.mpr ⟨e, he, hu, rfl⟩)

theorem inUseNames_set_inUse {t : List DirEntry} {i : Nat} {e : DirEntry}
    (hi : i < t.length) (hu : (t.getD i emptyEntry).inUse = false)
    (he : e.inUse = true) :
    (inUseNames (t.set i e)).Perm (e.name :: inUseNames t) := by
  induction t generalizing i with
  | nil => simp at hi
  | cons x rest ih =>
    cases i with
    | zero =>
      rw [List.getD_cons_zero] at hu
      simp only [List.set_cons_zero, inUseNames_cons, he, if_true, hu, if_false]
      exact List.Perm.refl _
    | succ j =>
      rw [List.getD_cons_succ] at hu
      have hj : j < rest.length := by simpa using Nat.lt_of_succ_lt_succ hi
      have hperm := ih hj hu
      by_cases hx : x.inUse
      · simp only [List.set_cons_succ, inUseNames_cons, hx, if_true]
        exact (hperm.cons x.name).trans (List.Perm.swap _ _ _)
      · simpa only [List.set_cons_succ, inUseNames_cons, hx, if_false] using hperm

theorem inUseNames_set_unused_sublist {t : List DirEntry} {i : Nat}
    {e : DirEntry} (he : e.inUse = false) :
    (inUseNames (t.set i e)).Sublist (inUseNames t) := by
  induction t generalizing i with
  | nil => simp [List.set_nil, inUseNames]
  | cons x rest ih =>
    cases i with
    | zero =>
      simp only [List.set_cons_zero, inUseNames_cons, he, if_false]
      by_cases hx : x.inUse
      · simp only [hx, if_true]; exact (List.Sublist.refl _).cons _
      · simp only [hx, if_false]; exact List.Sublist.refl _
    | succ j =>
      simp only [List.set_cons_succ, inUseNames_cons]
      by_cases hx : x.inUse
      · simp only [hx, if_true]; exact (ih (i := j)).cons₂ _
      · simp only [hx, if_false]; exact ih (i := j)

/-! ## Derived characterizations of Add and Remove -/

theorem firstUnused_some_min {t : List DirEntry} {i : Nat}
    (h : firstUnused t = some i) :
    ∀ j, j < i → (t.getD j emptyEntry).inUse = true := by
  induction t generalizing i with
  | nil => simp [firstUnused] at h
  | cons e rest ih =>
    by_cases hu : e.inUse
    · simp only [firstUnused, if_pos hu, Option.map_eq_some'] at h
      obtain ⟨i', hi', rfl⟩ := h
      intro j hj
      cases j with
      | zero => simpa using hu
      | succ j' =>
        rw [List.getD_cons_succ]
        exact ih hi' j' (Nat.lt_of_succ_lt_succ hj)
    · simp only [firstUnused, if_neg hu] at h
      cases h
      intro j hj; exact absurd hj (Nat.not_lt_zero j)

theorem firstUnused_isSome_of_count {t : List DirEntry}
    (h : countInUse t < t.length) : (firstUnused t).isSome = true := by
  rcases hf : firstUnused t with _ | i
  · have hall := firstUnused_eq_none.mp hf
    have : countInUse t = t.length := List.countP_eq_length.mpr hall
    omega
  · rfl

theorem dirAdd_some_facts {t : List DirEntry} {n : List Char} {s : Nat}
    {d : Bool} {t' : List DirEntry} (h : dirAdd t n s d = some t') :
    findIndex t n = none ∧ t'.length = t.length ∧
      (inUseNames t').Perm (n.take FileNameMaxLen :: inUseNames t) ∧
      countInUse t' = countInUse t + 1 := by
  by_cases hf : (findIndex t n).isSome
  · simp [dirAdd, hf] at h
  · have hnone : findIndex t n = none := Option.not_isSome_iff_eq_none.mp hf
    rcases hu : firstUnused t with _ | i
    · simp [dirAdd, hf, hu] at h
    simp only [dirAdd, hnone, hu, Option.isSome_none, Bool.false_eq_true, if_false,
      Option.map_some', Option.some.injEq] at h
    subst h
    obtain ⟨hlen, hunused⟩ := firstUnused_some hu
    have hperm := inUseNames_set_inUse (e :=
      { inUse := true, isDir := d, sector := s, name := n.take FileNameMaxLen })
      hlen hunused rfl
    refine ⟨hnone, List.length_set .., hperm, ?_⟩
    rw [countInUse_eq_length, countInUse_eq_length, hperm.length_eq]
    simp

theorem dirAdd_isSome_of {t : List DirEntry} {n : List Char} {s : Nat}
    {d : Bool} (hf : findIndex t n = none)
    (hc : countInUse t < t.length) : (dirAdd t n s d).isSome = true := by
  have := firstUnused_isSome_of_count hc
  rcases hu : firstUnused t with _ | i
  · rw [hu] at this; exact absurd this (by simp)
  · simp [dirAdd, hf, hu]

theorem dirRemove_some_facts {t : List DirEntry} {n : List Char}
    {t' : List DirEntry} (h : dirRemove t n = some t') :
    ∃ i, findIndex t n = some i ∧
      t' = t.set i { t.getD i emptyEntry with inUse := false, isDir := false } ∧
      (inUseNames t').Sublist (inUseNames t) ∧ t'.length = t.length := by
  simp only [dirRemove, Option.map_eq_some'] at h
  obtain ⟨i, hi, rfl⟩ := h
  exact ⟨i, hi, rfl, inUseNames_set_unused_sublist rfl, List.length_set ..⟩

theorem addAll_spec :
    ∀ (args : List (List Char × Nat × Bool)) (t : List DirEntry),
      List.Pairwise (fun a b => nameEq a b = false) (args.map Prod.fst) →
      (∀ a ∈ args, findIndex t a.1 = none) →
      args.length + countInUse t ≤ t.length →
      ∃ t', addAll t args = some t' ∧ t'.length = t.length ∧
        (inUseNames t').Perm
          ((args.map fun a => a.1.take FileNameMaxLen) ++ inUseNames t) := by
  intro args
  induction args with
  | nil =>
    intro t _ _ _
    exact ⟨t, rfl, rfl, List.Perm.refl _⟩
  | cons a rest ih =>
    intro t hpw habsent hcount
    have hfa : findIndex t a.1 = none := habsent a (List.mem_cons_self a rest)
    have hclt : countInUse t < t.length := by
      have := hcount; simp only [List.length_cons] at this; omega
    have hsome := dirAdd_isSome_of (s := a.2.1) (d := a.2.2) hfa hclt
    rcases hadd : dirAdd t a.1 a.2.1 a.2.2 with _ | t1
    · rw [hadd] at hsome; exact absurd hsome (by simp)
    obtain ⟨-, hlen1, hperm1, hcount1⟩ := dirAdd_some_facts hadd
    rw [List.map_cons, List.pairwise_cons] at hpw
    have hpw_rest : List.Pairwise (fun a b => nameEq a b = false)
        (rest.map Prod.fst) := hpw.2
    have hhead : ∀ b ∈ rest, nameEq a.1 b.1 = false := by
      intro b hb
      exact hpw.1 b.1 (List.mem_map.mpr ⟨b, hb, rfl⟩)
    have habsent1 : ∀ b ∈ rest, findIndex t1 b.1 = none := by
      intro b hb
      rw [findIndex_eq_none_iff_names]
      intro m hm
      rcases List.mem_cons.mp (hperm1.mem_iff.mp hm) with hm' | hm'
      · rw [hm', nameEq_take_left]; exact hhead b hb
      · exact findIndex_eq_none_iff_names.mp (habsent b (List.mem_cons_of_mem _ hb)) m hm'
    have hcount_rest : rest.length + countInUse t1 ≤ t1.length := by
      rw [hcount1, hlen1]
      simp only [List.length_cons] at hcount; omega
    obtain ⟨t', hall, hlen', hperm'⟩ := ih t1 hpw_rest habsent1 hcount_rest
    refine ⟨t', ?_, by rw [hlen', hlen1], ?_⟩
    · simp only [addAll, hadd]; exact hall
    · have h2 : ((rest.map fun b => b.1.take FileNameMaxLen) ++ inUseNames t1).Perm
          ((rest.map fun b => b.1.take FileNameMaxLen) ++
            (a.1.take FileNameMaxLen :: inUseNames t)) :=
        List.Perm.append_left _ hperm1
      have h3 := h2.trans (List.perm_middle)
      simpa using hperm'.trans h3

theorem inUseNames_dirNew (c : Nat) : inUseNames (dirNew c) = [] := by
  induction c with
  | zero => rfl
  | succ m ih =>
    rw [dirNew, List.replicate_succ, ← dirNew, inUseNames_cons]
    simp [emptyEntry, ih]

theorem countInUse_dirNew (c : Nat) : countInUse (dirNew c) = 0 := by
  rw [countInUse_eq_length, inUseNames_dirNew]; rfl

theorem findIndex_dirNew (c : Nat) (n : List Char) :
    findIndex (dirNew c) n = none := by
  rw [findIndex_eq_none]
  intro e he hu
  rw [(List.mem_replicate.mp he).2] at hu
  simp [emptyEntry] at hu

theorem nameEq_false_symm {a b : List Char} (h : nameEq a b = false) :
    nameEq b a = false := by
  rw [nameEq_symm]; exact h

/-- C4: `Directory::Add` fails with the table unchanged when an in-use
entry already carries the name; otherwise it overwrites the first
(lowest-index) unused slot with the in-use entry built from the given
name, sector and directory flag and succeeds; it fails with the table
unchanged when every slot is in use.  Consequently, filling an empty
capacity-`c` table with `c` names and then adding a `(c+1)`-th name, all
pairwise distinct under the fixed-length comparison, makes the last
`Add` fail, while removing any one of the added entries lets the retried
`Add` succeed. -/
theorem dirAdd_spec :
    (∀ (t : List DirEntry) (n : List Char) (s : Nat) (d : Bool),
      ((findIndex t n).isSome = true → dirAdd t n s d = none) ∧
      (findIndex t n = none → ∀ i, firstUnused t = some i →
        i < t.length ∧ (t.getD i emptyEntry).inUse = false ∧
        (∀ j, j < i → (t.getD j emptyEntry).inUse = true) ∧
        dirAdd t n s d = some (t.set i
          { inUse := true, isDir := d, sector := s,
            name := n.take FileNameMaxLen })) ∧
      (findIndex t n = none → firstUnused t = none → dirAdd t n s d = none)) ∧
    (∀ (c : Nat) (args : List (List Char × Nat × Bool)) (lastN : List Char)
        (ls : Nat) (ld : Bool),
      args.length = c →
      List.Pairwise (fun a b => nameEq a b = false)
        (args.map Prod.fst ++ [lastN]) →
      ∃ tFull, addAll (dirNew c) args = some tFull ∧
        dirAdd tFull lastN ls ld = none ∧
        ∀ a ∈ args, ∃ t', dirRemove tFull a.1 = some t' ∧
          (dirAdd t' lastN ls ld).isSome = true) := by
  constructor
  · intro t n s d
    refine ⟨?_, ?_, ?_⟩
    · intro h; simp [dirAdd, h]
    · intro hnone i hi
      obtain ⟨hlen, hunused⟩ := firstUnused_some hi
      exact ⟨hlen, hunused, firstUnused_some_min hi, by
        simp [dirAdd, hnone, hi]⟩
    · intro hnone hful
      simp [dirAdd, hnone, hful]
  · intro c args lastN ls ld hlen hpw
    have hpw_args : List.Pairwise (fun a b => nameEq a b = false)
        (args.map Prod.fst) :=
      List.Pairwise.sublist (List.sublist_append_left _ _) hpw
    have hcross : ∀ x ∈ args.map Prod.fst, nameEq x lastN = false := by
      intro x hx
      exact (List.pairwise_append.mp hpw).2.2 x hx lastN (List.mem_singleton.mpr rfl)
    obtain ⟨tFull, haddAll, hlenF, hpermF⟩ := addAll_spec args (dirNew c)
      hpw_args (fun a _ => findIndex_dirNew c a.1)
      (by rw [countInUse_dirNew, dirNew, List.length_replicate]; omega)
    have hlenF' : tFull.length = c := by
      rw [hlenF, dirNew, List.length_replicate]
    have hpermF' : (inUseNames tFull).Perm
        (args.map fun a => a.1.take FileNameMaxLen) := by
      rw [inUseNames_dirNew] at hpermF
      simpa using hpermF
    have hcountF : countInUse tFull = c := by
      rw [countInUse_eq_length, hpermF'.length_eq, List.length_map, hlen]
    have hfull : firstUnused tFull = none :=
      firstUnused_eq_none.mpr (List.countP_eq_length.mp (by rw [← countInUse] at *; omega))
    refine ⟨tFull, haddAll, ?_, ?_⟩
    · by_cases hf : (findIndex tFull lastN).isSome
      · simp [dirAdd, hf]
      · simp [dirAdd, hf, hfull]
    · intro a ha
      have hmem : a.1.take FileNameMaxLen ∈ inUseNames tFull :=
        hpermF'.mem_iff.mpr (List.mem_map.mpr ⟨a, ha, rfl⟩)
      obtain ⟨e, he, hu, hname⟩ := mem_inUseNames.mp hmem
      have hsomeF : (findIndex tFull a.1).isSome = true :=
        findIndex_isSome_of_mem e he hu (by rw [hname, nameEq_take_left, nameEq_refl])
      rcases hrem : dirRemove tFull a.1 with _ | t2
      · rcases hfi : findIndex tFull a.1 with _ | i
        · rw [hfi] at hsomeF; exact absurd hsomeF (by simp)
        · simp [dirRemove, hfi] at hrem
      obtain ⟨i, hfi, ht2eq, hsub2, hlen2⟩ := dirRemove_some_facts hrem
      obtain ⟨hiF, -, -⟩ := findIndex_some hfi
      refine ⟨t2, rfl, ?_⟩
      have hslot : (t2.getD i emptyEntry).inUse = false := by
        rw [ht2eq, getD_set_self hiF]
      have hfu : (firstUnused t2).isSome := by
        refine firstUnused_isSome ?_ hslot
        rw [hlen2]; exact hiF
      have hfind : findIndex t2 lastN = none := by
        rw [findIndex_eq_none_iff_names]
        intro m hm
        have hm' : m ∈ inUseNames tFull := hsub2.subset hm
        obtain ⟨b, hb, rfl⟩ := List.mem_map.mp (hpermF'.mem_iff.mp hm')
        rw [nameEq_take_left]
        exact hcross b.1 (List.mem_map.mpr ⟨b, hb, rfl⟩)
      rcases hfu' : firstUnused t2 with _ | j
      · rw [hfu'] at hfu; exact absurd hfu (by simp)
      · simp [dirAdd, hfind, hfu']

/-- C6: construction yields the all-unused table, and `Directory::Add` /
`Directory::Remove` preserve the invariant that in-use names are
pairwise distinct under the fixed-length comparison and the in-use
count never exceeds the fixed capacity. -/
theorem dir_table_invariant :
    (∀ c, distinctInUseNames (dirNew c) ∧
      countInUse (dirNew c) ≤ (dirNew c).length) ∧
    (∀ t n s d t', distinctInUseNames t → dirAdd t n s d = some t' →
      distinctInUseNames t' ∧ t'.length = t.length ∧
        countInUse t' ≤ t'.length) ∧
    (∀ t n t', distinctInUseNames t → dirRemove t n = some t' →
      distinctInUseNames t' ∧ t'.length = t.length ∧
        countInUse t' ≤ t'.length) := by
  have hsymm : ∀ {x y : List Char},
      nameEq x y = false → nameEq y x = false := fun h => nameEq_false_symm h
  refine ⟨?_, ?_, ?_⟩
  · intro c
    constructor
    · rw [distinctInUseNames, inUseNames_dirNew]; exact List.Pairwise.nil
    · exact countInUse_le
  · intro t n s d t' hinv hadd
    obtain ⟨hnone, hlen, hperm, -⟩ := dirAdd_some_facts hadd
    refine ⟨?_, hlen, countInUse_le⟩
    rw [distinctInUseNames]
    rw [List.Perm.pairwise_iff hsymm hperm]
    rw [List.pairwise_cons]
    refine ⟨?_, hinv⟩
    intro m hm
    rw [nameEq_take_left]
    exact hsymm (findIndex_eq_none_iff_names.mp hnone m hm)
  · intro t n t' hinv hrem
    obtain ⟨i, -, -, hsub, hlen⟩ := dirRemove_some_facts hrem
    exact ⟨List.Pairwise.sublist hsub hinv, hlen, countInUse_le⟩

/-- C10: when `Directory::Remove` finds a matching in-use entry it only
clears that slot's in-use and directory flags, keeping the slot's name
and sector and every other slot unchanged; when no entry matches it
fails with the table unchanged. -/
theorem dirRemove_frame (t : List DirEntry) (n : List Char) :
    (findIndex t n = none → dirRemove t n = none) ∧
    (∀ i, findIndex t n = some i →
      ∃ t', dirRemove t n = some t' ∧ i < t.length ∧ t'.length = t.length ∧
        (t'.getD i emptyEntry).inUse = false ∧
        (t'.getD i emptyEntry).isDir = false ∧
        (t'.getD i emptyEntry).name = (t.getD i emptyEntry).name ∧
        (t'.getD i emptyEntry).sector = (t.getD i emptyEntry).sector ∧
        ∀ j, j ≠ i → t'.getD j emptyEntry = t.getD j emptyEntry) := by
  constructor
  · intro h; simp [dirRemove, h]
  · intro i hi
    obtain ⟨hiF, -, -⟩ := findIndex_some hi
    refine ⟨t.set i { t.getD i emptyEntry with inUse := false, isDir := false },
      by simp [dirRemove, hi], hiF, List.length_set .., ?_, ?_, ?_, ?_, ?_⟩
    · rw [getD_set_self hiF]
    · rw [getD_set_self hiF]
    · rw [getD_set_self hiF]
    · rw [getD_set_self hiF]
    · intro j hj; exact getD_set_ne hj

/-! ## Lemmas about path resolution -/

theorem parseWalk_append (st : DiskState) (xs ys : List (List Char))
    (cur : Nat) :
    parseWalk st (xs ++ ys) cur =
      match parseWalk st xs cur with
      | none => none
      | some d => parseWalk st ys d := by
  induction xs generalizing cur with
  | nil => rfl
  | cons n rest ih =>
    rcases h : dirFind (fetchTable st cur) n with _ | s
    · simp only [List.cons_append, parseWalk, h]
    · simp only [List.cons_append, parseWalk, h]
      exact ih s

/-- C7: `FileSystem::Parse` tokenizes the path and walks components
`c[0] .. c[n-1-creating]` from the root table; it returns the null
handle as soon as a visited component is not found in the table reached
at that point (mutating nothing — it is a pure function of the disk
state), and on success it returns the handle of the last visited
directory, the parent of the final component when `creating` is true,
so the final component itself is never required to resolve. -/
theorem parse_resolution (st : DiskState) (path : List Char) (create : Bool) :
    (Parse st path create).2 = folderOf path ∧
    (Parse st path create).1 =
      parseWalk st ((folderOf path).take
        ((folderOf path).length - (if create then 1 else 0))) DirectorySector ∧
    (create = true →
      (folderOf path).take ((folderOf path).length - 1) =
        (folderOf path).dropLast) ∧
    (∀ xs y ys d,
      (folderOf path).take
          ((folderOf path).length - (if create then 1 else 0)) = xs ++ y :: ys →
      parseWalk st xs DirectorySector = some d →
      dirFind (fetchTable st d) y = none →
      (Parse st path create).1 = none) ∧
    (∀ h, (Parse st path create).1 = some h →
      ((folderOf path).take
          ((folderOf path).length - (if create then 1 else 0)) = [] ∧
        h = DirectorySector) ∨
      ∃ xs y d,
        (folderOf path).take
            ((folderOf path).length - (if create then 1 else 0)) = xs ++ [y] ∧
        parseWalk st xs DirectorySector = some d ∧
        dirFind (fetchTable st d) y = some h) := by
  refine ⟨rfl, rfl, ?_, ?_, ?_⟩
  · intro _
    exact (List.dropLast_eq_take _).symm
  · intro xs y ys d heq hwalk hfind
    show parseWalk st _ DirectorySector = none
    rw [heq, parseWalk_append, hwalk]
    simp only [parseWalk, hfind]
  · intro h hsome
    rcases List.eq_nil_or_concat ((folderOf path).take
        ((folderOf path).length - (if create then 1 else 0))) with hnil | ⟨xs, y, hcat⟩
    · left
      refine ⟨hnil, ?_⟩
      have : (Parse st path create).1 = some DirectorySector := by
        show parseWalk st _ DirectorySector = _
        rw [hnil]; rfl
      rw [this] at hsome
      exact (Option.some.injEq _ _ ▸ hsome.symm :)
    · right
      rw [List.concat_eq_append] at hcat
      have hps : (Parse st path create).1 =
          match parseWalk st xs DirectorySector with
          | none => none
          | some d => parseWalk st [y] d := by
        show parseWalk st _ DirectorySector = _
        rw [hcat, parseWalk_append]
      rw [hps] at hsome
      rcases hw : parseWalk st xs DirectorySector with _ | d
      · rw [hw] at hsome; exact absurd hsome (by simp)
      · rw [hw] at hsome
        rcases hf : dirFind (fetchTable st d) y with _ | s
        · simp only [parseWalk, hf] at hsome
          exact absurd hsome (by simp)
        · simp only [parseWalk, hf] at hsome
          cases hsome
          exact ⟨xs, y, d, hcat, hw, hf⟩

/-! ## Lemmas about bitmap bits -/

theorem bmTest_bmClear_self (bm : Bitmap) (i : Nat) :
    bmTest (bmClear bm i) i = false := by
  by_cases h : i < bm.length
  · rw [bmTest, bmClear, getD_set_self h]
  · rw [bmTest, bmClear, List.getD_eq_default]
    rw [List.length_set]; omega

theorem bmTest_bmClear_other (bm : Bitmap) (i j : Nat) (h : j ≠ i) :
    bmTest (bmClear bm i) j = bmTest bm j := by
  rw [bmTest, bmClear, getD_set_ne h]; rfl

theorem bmTest_foldl_clear (ss : List Nat) (bm : Bitmap) (d : Nat)
    (hd : d ∈ ss) : bmTest (ss.foldl bmClear bm) d = false := by
  induction ss generalizing bm with
  | nil => cases hd
  | cons s rest ih =>
    rw [List.foldl_cons]
    by_cases hrest : d ∈ rest
    · exact ih _ hrest
    · rcases List.mem_cons.mp hd with rfl | hmem
      · have : ∀ bm', bmTest (rest.foldl bmClear bm') d = bmTest bm' d := by
          intro bm'
          clear ih hd
          induction rest generalizing bm' with
          | nil => rfl
          | cons s' rest' ih' =>
            rw [List.foldl_cons]
            rw [ih' (fun h => hrest (List.mem_cons_of_mem _ h))]
            exact bmTest_bmClear_other _ _ _
              (fun h => hrest (h ▸ List.mem_cons_self s' rest'))
        rw [this]
        exact bmTest_bmClear_self bm d
      · exact absurd hmem hrest

theorem bmTest_hdrDeallocate {h : FileHeader} {bm : Bitmap} {d : Nat}
    (hd : d ∈ h.dataSectors) : bmTest (hdrDeallocate h bm) d = false :=
  bmTest_foldl_clear _ _ _ hd

/-! ## Shape of Create and Remove -/

theorem create_shape (g : Geometry) (st : DiskState) (path : List Char)
    (size : Nat) :
    Create g st path size = (false, []) ∨
    ∃ parentSec folder sector bm1 dir2 hdr bm2,
      Parse st path true = (some parentSec, folder) ∧
      bmFindAndSet st.bitmap = some (sector, bm1) ∧
      dirAdd (fetchTable st parentSec) (finalNameOf folder) sector false =
        some dir2 ∧
      hdrAllocate g.sectorSize bm1 size = some (hdr, bm2) ∧
      Create g st path size =
        (true, [WEvent.wheader sector hdr, WEvent.wtable parentSec dir2,
                WEvent.wbitmap bm2]) := by
  unfold Create
  split
  · exact Or.inl rfl
  next parentSec folder heq =>
    split
    · exact Or.inl rfl
    next hfind =>
      split
      · exact Or.inl rfl
      next sector bm1 hbm =>
        split
        · exact Or.inl rfl
        next dir2 hadd =>
          split
          · exact Or.inl rfl
          next hdr bm2 halloc =>
            exact Or.inr ⟨parentSec, folder, sector, bm1, dir2, hdr, bm2,
              heq, hbm, hadd, halloc, rfl⟩

theorem remove_parse_fail (st : DiskState) (path : List Char)
    (hp : (Parse st path true).1 = none) : Remove st path = (false, []) := by
  unfold Remove
  split
  · rfl
  next p2 f2 heq =>
    have h1 : (Parse st path true).1 = some p2 := congrArg Prod.fst heq
    rw [hp] at h1
    exact absurd h1 (by simp)

theorem remove_find_fail (st : DiskState) (path : List Char) (parentSec : Nat)
    (hp : (Parse st path true).1 = some parentSec)
    (hfind : dirFind (fetchTable st parentSec) (finalNameOf (folderOf path)) =
      none) : Remove st path = (false, []) := by
  unfold Remove
  split
  · rfl
  next p2 f2 heq =>
    have hfo : f2 = folderOf path := (congrArg Prod.snd heq).symm
    have h1 : (Parse st path true).1 = some p2 := congrArg Prod.fst heq
    rw [hp] at h1
    obtain rfl : p2 = parentSec := by injection h1 with h2; exact h2.symm
    subst hfo
    split
    · rfl
    next sec2 hfind2 =>
      rw [hfind] at hfind2
      exact absurd hfind2 (by simp)

theorem remove_success_shape (st : DiskState) (path : List Char)
    (parentSec sector : Nat)
    (hp : (Parse st path true).1 = some parentSec)
    (hfind : dirFind (fetchTable st parentSec) (finalNameOf (folderOf path)) =
      some sector) :
    Remove st path =
      (true,
       [WEvent.wbitmap (bmClear (hdrDeallocate
          ((st.headers sector).getD { numBytes := 0, dataSectors := [] })
          st.bitmap) sector),
        WEvent.wtable parentSec ((dirRemove (fetchTable st parentSec)
          (finalNameOf (folderOf path))).getD (fetchTable st parentSec))]) := by
  unfold Remove
  split
  next f2 heq =>
    have h1 : (Parse st path true).1 = (none : Option Nat) := congrArg Prod.fst heq
    rw [hp] at h1
    exact absurd h1 (by simp)
  next p2 f2 heq =>
    have hfo : f2 = folderOf path := (congrArg Prod.snd heq).symm
    have h1 : (Parse st path true).1 = some p2 := congrArg Prod.fst heq
    rw [hp] at h1
    obtain rfl : p2 = parentSec := by injection h1 with h2; exact h2.symm
    subst hfo
    split
    next hnone =>
      rw [hfind] at hnone
      exact absurd hnone (by simp)
    next sec2 hfind2 =>
      rw [hfind] at hfind2
      obtain rfl : sec2 = sector := by injection hfind2 with h2; exact h2.symm
      rfl

/-- C1: every `FileSystem::Create` call that fails — at parent
resolution, the final-name check, header-sector acquisition, the
directory-slot add, or data-block allocation — performs no persistent
write at all, so the on-disk state is unchanged; the mutated in-memory
bitmap and table copies are simply discarded. -/
theorem create_failure_writes_nothing (g : Geometry) (st : DiskState)
    (path : List Char) (size : Nat)
    (h : (Create g st path size).1 = false) :
    (Create g st path size).2 = [] ∧
    applyEvents st (Create g st path size).2 = st := by
  rcases create_shape g st path size with hfail | ⟨p, f, sector, bm1, dir2,
    hdr, bm2, -, -, -, -, hsucc⟩
  · rw [hfail]
    exact ⟨rfl, rfl⟩
  · rw [hsucc] at h
    exact absurd h (by simp)

/-- C3: every successful `FileSystem::Create` commits by exactly three
persistent writes, in program order: the new header to its sector, then
the parent directory table to its backing file, then the free-space
bitmap to its file — the bitmap write-back last. -/
theorem create_success_commit_order (g : Geometry) (st : DiskState)
    (path : List Char) (size : Nat)
    (h : (Create g st path size).1 = true) :
    ∃ parentSec sector hdr dir2 bm2,
      (Parse st path true).1 = some parentSec ∧
      (Create g st path size).2 =
        [WEvent.wheader sector hdr, WEvent.wtable parentSec dir2,
         WEvent.wbitmap bm2] := by
  rcases create_shape g st path size with hfail | ⟨p, f, sector, bm1, dir2,
    hdr, bm2, hp, -, -, -, hsucc⟩
  · rw [hfail] at h
    exact absurd h (by simp)
  · exact ⟨p, sector, hdr, dir2, bm2, by rw [hp],
      by rw [hsucc]⟩

/-- C5: `FileSystem::Remove` fails with nothing written when the parent
fails to resolve or the final name is absent from the parent table;
otherwise it succeeds and persists exactly the free map — in which the
file's data sectors and its own header sector are all clear — followed
by the parent table with the file's entry removed. -/
theorem remove_spec (st : DiskState) (path : List Char) :
    ((Parse st path true).1 = none →
      Remove st path = (false, []) ∧ applyEvents st (Remove st path).2 = st) ∧
    (∀ parentSec, (Parse st path true).1 = some parentSec →
      (dirFind (fetchTable st parentSec) (finalNameOf (folderOf path)) = none →
        Remove st path = (false, []) ∧
        applyEvents st (Remove st path).2 = st) ∧
      (∀ sector hdr,
        dirFind (fetchTable st parentSec) (finalNameOf (folderOf path)) =
          some sector →
        st.headers sector = some hdr →
        (Remove st path).1 = true ∧
        (Remove st path).2 =
          [WEvent.wbitmap (bmClear (hdrDeallocate hdr st.bitmap) sector),
           WEvent.wtable parentSec ((dirRemove (fetchTable st parentSec)
             (finalNameOf (folderOf path))).getD (fetchTable st parentSec))] ∧
        bmTest (applyEvents st (Remove st path).2).bitmap sector = false ∧
        (∀ d ∈ hdr.dataSectors,
          bmTest (applyEvents st (Remove st path).2).bitmap d = false))) := by
  refine ⟨?_, ?_⟩
  · intro hp
    have h := remove_parse_fail st path hp
    rw [h]
    exact ⟨rfl, rfl⟩
  · intro parentSec hp
    refine ⟨?_, ?_⟩
    · intro hfind
      have h := remove_find_fail st path parentSec hp hfind
      rw [h]
      exact ⟨rfl, rfl⟩
    · intro sector hdr hfind hh
      have h := remove_success_shape st path parentSec sector hp hfind
      have hhdr : (st.headers sector).getD { numBytes := 0, dataSectors := [] } =
          hdr := by rw [hh]; rfl
      rw [hhdr] at h
      rw [h]
      refine ⟨rfl, rfl, bmTest_bmClear_self _ _, ?_⟩
      intro d hd
      by_cases hds : d = sector
      · rw [hds]
        exact bmTest_bmClear_self _ _
      · show bmTest (bmClear (hdrDeallocate hdr st.bitmap) sector) d = false
        rw [bmTest_bmClear_other _ _ _ hds]
        exact bmTest_hdrDeallocate hd

/-- C9: `FileSystem::Open` makes no file-versus-directory check: when the
final component resolves to an in-use entry whose directory flag is set,
`Open` returns a handle over that entry's sector exactly as it would for
a regular file. -/
theorem open_no_type_check (st : DiskState) (path : List Char)
    (parentSec i : Nat)
    (hp : (Parse st path true).1 = some parentSec)
    (hfi : findIndex (fetchTable st parentSec) (finalNameOf (folderOf path)) =
      some i)
    (hd : ((fetchTable st parentSec).getD i emptyEntry).isDir = true) :
    Open st path =
      some ((fetchTable st parentSec).getD i emptyEntry).sector := by
  unfold Open
  split
  next f2 heq =>
    have h1 : (Parse st path true).1 = (none : Option Nat) := congrArg Prod.fst heq
    rw [hp] at h1
    exact absurd h1 (by simp)
  next p2 f2 heq =>
    have hfo : f2 = folderOf path := (congrArg Prod.snd heq).symm
    have h1 : (Parse st path true).1 = some p2 := congrArg Prod.fst heq
    rw [hp] at h1
    obtain rfl : p2 = parentSec := by injection h1 with h2; exact h2.symm
    subst hfo
    simp [dirFind, hfi]

/-! ## Concrete refutations (claims C2 and C8) -/

/-- C2: executable run of the spec's own scenario —
`CreateDirectory("/a")`, `CreateDirectory("/a/b")`,
`Create("/a/b/f.txt", 10)`, `RecurRemoveDirectory("/a")`.  All three
set-up calls succeed, the recursive removal returns normally and the
three re-opens fail as the claim says, and the target's own sectors
(4, 5) are freed — but the persisted bitmap still marks the sectors of
`/a/b` (header 6, data 7) and `/a/b/f.txt` (header 8, data 9) as used,
because each directory writes back a free-map copy fetched before its
children were removed.  This refutes the claim's assertion that every
occupied sector is free afterwards. -/
theorem recurRemove_scenario_leaks_sectors :
    (CreateDirectorySt gEx disk0 pA).1 = true ∧
    (CreateDirectorySt gEx stA pAB).1 = true ∧
    (CreateSt gEx stB pABF 10).1 = true ∧
    (rrState rrRun).isSome = true ∧
    Open stEnd pA = none ∧ Open stEnd pAB = none ∧ Open stEnd pABF = none ∧
    bmTest stEnd.bitmap 4 = false ∧ bmTest stEnd.bitmap 5 = false ∧
    Open stF pA = some 4 ∧
    ((stF.headers 4).getD { numBytes := 0, dataSectors := [] }).dataSectors
      = [5] ∧
    Open stF pAB = some 6 ∧
    ((stF.headers 6).getD { numBytes := 0, dataSectors := [] }).dataSectors
      = [7] ∧
    Open stF pABF = some 8 ∧
    ((stF.headers 8).getD { numBytes := 0, dataSectors := [] }).dataSectors
      = [9] ∧
    bmTest stEnd.bitmap 6 = true ∧ bmTest stEnd.bitmap 7 = true ∧
    bmTest stEnd.bitmap 8 = true ∧ bmTest stEnd.bitmap 9 = true := by
  decide

/-- C8: `RecurRemoveDirectory` does not report a failing non-final
component by returning false: `Parse` returns the null handle on
`"/g/s"` with `g` absent, and the call then executes
`ASSERT(openDirectoryFile != NULL)`, which hard-aborts the running
system (the function body, moreover, contains no return statement at
all).  This refutes the claim at a concrete input. -/
theorem recurRemove_aborts_on_missing_dir :
    (Parse disk0 ['/', 'g', '/', 's'] true).1 = none ∧
    rrAborted (recurRemoveAux 5 disk0 ['/', 'g', '/', 's']) = true := by
  decide

/-! ## Witnesses -/

theorem create_failure_writes_nothing_witness :
    (Create gEx disk0 ['/', 'x', '/', 'y'] 5).2 = [] ∧
    applyEvents disk0 (Create gEx disk0 ['/', 'x', '/', 'y'] 5).2 = disk0 :=
  create_failure_writes_nothing gEx disk0 ['/', 'x', '/', 'y'] 5 (by decide)

theorem create_success_commit_order_witness :
    ∃ parentSec sector hdr dir2 bm2,
      (Parse disk0 ['/', 'f'] true).1 = some parentSec ∧
      (Create gEx disk0 ['/', 'f'] 10).2 =
        [WEvent.wheader sector hdr, WEvent.wtable parentSec dir2,
         WEvent.wbitmap bm2] :=
  create_success_commit_order gEx disk0 ['/', 'f'] 10 (by decide)

theorem dirAdd_spec_witness :
    (∃ tFull, addAll (dirNew 1) [(['a'], 5, false)] = some tFull ∧
      dirAdd tFull ['b'] 6 false = none ∧
      ∀ a ∈ [(['a'], 5, false)], ∃ t2, dirRemove tFull a.1 = some t2 ∧
        (dirAdd t2 ['b'] 6 false).isSome = true) :=
  dirAdd_spec.2 1 [(['a'], 5, false)] ['b'] 6 false (by decide) (by decide)

theorem remove_spec_witness :
    (Remove stFile ['/', 'f']).1 = true ∧
    (Remove stFile ['/', 'f']).2 =
      [WEvent.wbitmap (bmClear
         (hdrDeallocate { numBytes := 10, dataSectors := [5] } stFile.bitmap) 4),
       WEvent.wtable 1 ((dirRemove (fetchTable stFile 1)
         (finalNameOf (folderOf ['/', 'f']))).getD (fetchTable stFile 1))] ∧
    bmTest (applyEvents stFile (Remove stFile ['/', 'f']).2).bitmap 4 = false ∧
    (∀ d ∈ FileHeader.dataSectors { numBytes := 10, dataSectors := [5] },
      bmTest (applyEvents stFile (Remove stFile ['/', 'f']).2).bitmap d
        = false) :=
  ((remove_spec stFile ['/', 'f']).2 1 (by decide)).2 4
    { numBytes := 10, dataSectors := [5] } (by decide) (by decide)

theorem dir_table_invariant_witness :
    distinctInUseNames
      ((dirNew 2).set 0
        { inUse := true, isDir := false, sector := 5, name := ['a'] }) ∧
    ((dirNew 2).set 0
      { inUse := true, isDir := false, sector := 5, name := ['a'] }).length =
      (dirNew 2).length ∧
    countInUse ((dirNew 2).set 0
      { inUse := true, isDir := false, sector := 5, name := ['a'] }) ≤
      ((dirNew 2).set 0
        { inUse := true, isDir := false, sector := 5, name := ['a'] }).length :=
  dir_table_invariant.2.1 (dirNew 2) ['a'] 5 false
    ((dirNew 2).set 0
      { inUse := true, isDir := false, sector := 5, name := ['a'] })
    (by rw [distinctInUseNames, inUseNames_dirNew]; exact List.Pairwise.nil)
    (by decide)

theorem parse_resolution_witness :
    (Parse disk0 ['/', 'x', '/', 'y'] true).1 = none :=
  (parse_resolution disk0 ['/', 'x', '/', 'y'] true).2.2.2.1
    [] ['x'] [] DirectorySector (by decide) (by decide) (by decide)

theorem open_no_type_check_witness :
    Open stA ['/', 'a'] =
      some ((fetchTable stA 1).getD 0 emptyEntry).sector :=
  open_no_type_check stA ['/', 'a'] 1 0 (by decide) (by decide) (by decide)

theorem dirRemove_frame_witness :
    ∃ t2, dirRemove
        [{ inUse := true, isDir := true, sector := 7, name := ['a'] },
         { inUse := true, isDir := false, sector := 9, name := ['b'] }]
        ['a'] = some t2 ∧
      0 < ([{ inUse := true, isDir := true, sector := 7, name := ['a'] },
            { inUse := true, isDir := false, sector := 9, name := ['b'] }] :
            List DirEntry).length ∧
      t2.length = 2 ∧
      (t2.getD 0 emptyEntry).inUse = false ∧
      (t2.getD 0 emptyEntry).isDir = false ∧
      (t2.getD 0 emptyEntry).name =
        (([{ inUse := true, isDir := true, sector := 7, name := ['a'] },
           { inUse := true, isDir := false, sector := 9, name := ['b'] }] :
           List DirEntry).getD 0 emptyEntry).name ∧
      (t2.getD 0 emptyEntry).sector =
        (([{ inUse := true, isDir := true, sector := 7, name := ['a'] },
           { inUse := true, isDir := false, sector := 9, name := ['b'] }] :
           List DirEntry).getD 0 emptyEntry).sector ∧
      ∀ j, j ≠ 0 → t2.getD j emptyEntry =
        ([{ inUse := true, isDir := true, sector := 7, name := ['a'] },
          { inUse := true, isDir := false, sector := 9, name := ['b'] }] :
          List DirEntry).getD j emptyEntry :=
  (dirRemove_frame
    [{ inUse := true, isDir := true, sector := 7, name := ['a'] },
     { inUse := true, isDir := false, sector := 9, name := ['b'] }] ['a']).2
    0 (by decide)

end NachFS

